import Mathlib

/-!
Shallow embedding of the `rustuna` hyperparameter-optimization engine
(`src/main.rs`) and verification of its specification claims.

Modelling conventions:
  - Rust `f64` is modelled by the inductive type `F64`: a finite value is an
    exact rational, and the special values NaN, `+inf`, `-inf` are separate
    constructors.  Only the operations the program uses are modelled
    (finiteness test, IEEE comparison, integer casts, `ln`/`exp` structure).
  - Rust `i64`/`usize` are modelled as `Int`/`Nat`; the `as` casts keep their
    Rust semantics (truncation toward zero with saturation at the type bounds).
  - `HashMap<String, T>` is modelled as an association list with
    insert-replaces-key semantics; iteration order of a `HashMap` is
    unobservable in the source, so the list order is a harmless choice.
  - `&mut self` methods returning `Result<T>` become pure functions returning
    `Except StorageError T × Storage` (result together with the post-state);
    an error result leaves the state component equal to the input state, which
    is provable rather than assumed.
  - Rust panics (out-of-range indexing, `Option::unwrap` on `None`, the
    asserts inside `rand`'s `Uniform` constructors) are modelled by
    `Except PanicKind`.
  - The random source is an injected capability per spec section 6 ("uniform
    float in [a,b]" / "uniform integer in [a,b]"); it is modelled as a
    deterministic stream `Rng` whose draws are reduced into the requested
    range.  No claim depends on the distribution of the draws.
-/

/-- Rust `f64` values: an exact rational for finite doubles plus the three
special values. Only finite values produced by the program are represented;
the rational carried by `finite` is the exact real value of the double. -/
inductive F64 where
  | finite (q : ℚ)
  | nan
  | posInf
  | negInf
deriving DecidableEq, Repr

/-- Rust `f64::is_finite`. -/
def F64.isFinite : F64 → Bool
  | .finite _ => true
  | _ => false

/-- IEEE `<=` on doubles as a Bool: any comparison involving NaN is false.
This is the semantics of Rust's `low <= high` used by `rand`'s
`Uniform::from(low..=high)` assertion. -/
def F64.ieeeLe : F64 → F64 → Bool
  | .nan, _ => false
  | _, .nan => false
  | .negInf, _ => true
  | _, .negInf => false
  | .posInf, .posInf => true
  | .finite _, .posInf => true
  | .posInf, .finite _ => false
  | .finite a, .finite b => decide (a ≤ b)

/-- Total order used to model `sort_by(|a, b| a.value.partial_cmp(&b.value).unwrap())`
in `get_best_trial`.  On finite values it agrees with the IEEE order; the
source would panic on NaN (`unwrap` of `None`), but `get_best_trial` sorts
only values that passed the `is_finite` filter, so the extension of the order
to the special values (NaN greatest) is unobservable. -/
def F64.leB : F64 → F64 → Bool
  | .negInf, _ => true
  | .finite _, .negInf => false
  | .posInf, .negInf => false
  | .nan, .negInf => false
  | .finite a, .finite b => decide (a ≤ b)
  | .finite _, _ => true
  | .posInf, .finite _ => false
  | .posInf, .posInf => true
  | .posInf, .nan => true
  | .nan, .finite _ => false
  | .nan, .posInf => false
  | .nan, .nan => true

/-- Binade scan: the number of halvings needed to bring `m` at or below
`2^53` (with enough fuel to cover any 64-bit magnitude). -/
def ulpExpGo (m : Nat) : Nat → Nat
  | 0 => 0
  | fuel + 1 => if m ≤ 2 ^ 53 then 0 else ulpExpGo (m / 2) fuel + 1

/-- Exponent of the unit in the last place of the double nearest to the
integer `n`: integers of magnitude at most `2^53` are exactly representable
(ulp `2^0`), and an integer with `b > 53` significant bits rounds to a
multiple of `2^(b-53)`. -/
def f64UlpExp (n : Int) : Nat :=
  ulpExpGo n.natAbs 64

/-- Round the integer `n` to the nearest multiple of `s` (for `s = 2^e > 0`),
ties to the even multiple: the IEEE round-to-nearest-even rule restricted to
integers, which is what the Rust cast `i64 as f64` performs. -/
def roundHalfEven (n : Int) (s : Int) : Int :=
  let q := n.ediv s
  let r := n.emod s
  if 2 * r < s then q * s
  else if 2 * r > s then (q + 1) * s
  else if q.emod 2 = 0 then q * s else (q + 1) * s

/-- The exact rational value of the Rust cast `n as f64` for `n : i64`:
round-to-nearest-even to 53 bits of precision (every `i64` is far below the
overflow threshold of `f64`, so the result is always finite). -/
def i64AsF64 (n : Int) : ℚ :=
  ((roundHalfEven n (2 ^ f64UlpExp n) : Int) : ℚ)

/-- Truncation of a rational toward zero (the fractional-part discarding of a
Rust float-to-integer `as` cast). -/
def ratTrunc (q : ℚ) : Int :=
  q.num.tdiv (q.den : Int)

/-- The Rust cast `x as i64` for `x : f64`: truncate toward zero, saturating
at the bounds of `i64`; NaN casts to 0. -/
def F64.toI64 : F64 → Int
  | .finite q => max (-(2 ^ 63)) (min (2 ^ 63 - 1) (ratTrunc q))
  | .nan => 0
  | .posInf => 2 ^ 63 - 1
  | .negInf => -(2 ^ 63)

/-- The Rust cast `x as usize` for `x : f64` (64-bit target): truncate toward
zero, saturating at 0 and `usize::MAX`; NaN casts to 0. -/
def F64.toUsize : F64 → Nat
  | .finite q => min (2 ^ 64 - 1) (ratTrunc q).toNat
  | .nan => 0
  | .posInf => 2 ^ 64 - 1
  | .negInf => 0

/-- `IntUniformDistribution { low, high }` from the source. -/
structure IntUniformDistribution where
  low : Int
  high : Int
deriving DecidableEq, Repr

/-- `IntUniformDistribution::new`. -/
def IntUniformDistribution.new (low high : Int) : IntUniformDistribution :=
  { low := low, high := high }

/-- `Distribution<i64>::to_internal_repr` for `IntUniformDistribution`:
`external_repr as f64`. -/
def IntUniformDistribution.to_internal_repr (_self : IntUniformDistribution)
    (external_repr : Int) : F64 :=
  .finite (i64AsF64 external_repr)

/-- `Distribution<i64>::to_external_repr` for `IntUniformDistribution`:
`internal_repr as i64`. -/
def IntUniformDistribution.to_external_repr (_self : IntUniformDistribution)
    (internal_repr : F64) : Int :=
  internal_repr.toI64

/-- `UniformDistribution { low, high }` from the source. -/
structure UniformDistribution where
  low : F64
  high : F64
deriving DecidableEq, Repr

/-- `UniformDistribution::new`. -/
def UniformDistribution.new (low high : F64) : UniformDistribution :=
  { low := low, high := high }

/-- `Distribution<f64>::to_internal_repr` for `UniformDistribution`: identity. -/
def UniformDistribution.to_internal_repr (_self : UniformDistribution)
    (external_repr : F64) : F64 :=
  external_repr

/-- `Distribution<f64>::to_external_repr` for `UniformDistribution`: identity. -/
def UniformDistribution.to_external_repr (_self : UniformDistribution)
    (internal_repr : F64) : F64 :=
  internal_repr

/-- `LogUniformDistribution { low, high }` from the source. -/
structure LogUniformDistribution where
  low : F64
  high : F64
deriving DecidableEq, Repr

/-- `LogUniformDistribution::new`. -/
def LogUniformDistribution.new (low high : F64) : LogUniformDistribution :=
  { low := low, high := high }

/-- `Distribution<f64>::to_internal_repr` for `LogUniformDistribution`: identity. -/
def LogUniformDistribution.to_internal_repr (_self : LogUniformDistribution)
    (external_repr : F64) : F64 :=
  external_repr

/-- `Distribution<f64>::to_external_repr` for `LogUniformDistribution`: identity. -/
def LogUniformDistribution.to_external_repr (_self : LogUniformDistribution)
    (internal_repr : F64) : F64 :=
  internal_repr

/-- Kinds of Rust panic the modelled code can raise. -/
inductive PanicKind where
  | uniformBadRange
  | emptyRange
  | indexOutOfBounds
  | unwrapNone
deriving DecidableEq, Repr

/-- `CategoricalDistribution { choices }` from the source. -/
structure CategoricalDistribution where
  choices : List String
deriving DecidableEq, Repr

/-- `CategoricalDistribution::new`. -/
def CategoricalDistribution.new (choices : List String) : CategoricalDistribution :=
  { choices := choices }

/-- `Distribution<String>::to_internal_repr` for `CategoricalDistribution`:
`choices.iter().position(|c| *c == external_repr).unwrap_or(0) as f64`. -/
def CategoricalDistribution.to_internal_repr (self : CategoricalDistribution)
    (external_repr : String) : F64 :=
  .finite (((self.choices.findIdx? (fun choice => choice == external_repr)).getD 0 : Nat) : ℚ)

/-- `Distribution<String>::to_external_repr` for `CategoricalDistribution`:
`self.choices[internal_repr as usize].clone()`; indexing out of bounds is a
Rust panic. -/
def CategoricalDistribution.to_external_repr (self : CategoricalDistribution)
    (internal_repr : F64) : Except PanicKind String :=
  match self.choices[internal_repr.toUsize]? with
  | some s => .ok s
  | none => .error .indexOutOfBounds

/-- The `Distributions` enum from the source (the tagged union holding any of
the four distribution variants). -/
inductive Distributions where
  | uni (d : UniformDistribution)
  | intUni (d : IntUniformDistribution)
  | categorical (d : CategoricalDistribution)
  | logUni (d : LogUniformDistribution)
deriving DecidableEq, Repr

/-- The `ExternalRepr` enum from the source. -/
inductive ExternalRepr where
  | int (n : Int)
  | float (x : F64)
  | str (s : String)
deriving DecidableEq, Repr

/-- The `FrozenTrialState` enum from the source. -/
inductive FrozenTrialState where
  | running
  | completed
  | failed
deriving DecidableEq, Repr

/-- Association-list model of `HashMap<String, T>`: insert replaces any
existing binding of the key (HashMap iteration order is unobservable in the
source, so the position of the new binding is a free modelling choice). -/
def mapInsert {α : Type} (m : List (String × α)) (k : String) (v : α) :
    List (String × α) :=
  (k, v) :: m.filter (fun p => p.1 ≠ k)

/-- The `FrozenTrial` struct from the source. -/
structure FrozenTrial where
  trial_id : Nat
  state : FrozenTrialState
  value : F64
  internal_params : List (String × F64)
  distributions : List (String × Distributions)
deriving DecidableEq, Repr

/-- `FrozenTrial::new`: empty parameter and distribution maps. -/
def FrozenTrial.new (trial_id : Nat) (state : FrozenTrialState) (value : F64) :
    FrozenTrial :=
  { trial_id := trial_id, state := state, value := value,
    internal_params := [], distributions := [] }

/-- `FrozenTrial::is_finised` (typo as in the source): any state other than
`Running` counts as finished. -/
def FrozenTrial.is_finised (self : FrozenTrial) : Bool :=
  match self.state with
  | .running => false
  | _ => true

/-- Conversion of one stored internal value through its recorded distribution,
as performed inside the loop of `FrozenTrial::params`. -/
def convertParam (d : Distributions) (internal_repr : F64) :
    Except PanicKind ExternalRepr :=
  match d with
  | .uni dist => .ok (.float (dist.to_external_repr internal_repr))
  | .intUni dist => .ok (.int (dist.to_external_repr internal_repr))
  | .categorical dist => (dist.to_external_repr internal_repr).map .str
  | .logUni dist => .ok (.float (dist.to_external_repr internal_repr))

/-- Loop body of `FrozenTrial::params`: for each stored parameter name look
up its distribution (`self.distributions.get_mut(name).unwrap()`: a missing
entry is an `unwrap` panic, modelled as `.error .unwrapNone`) and convert the
internal value to its external representation. -/
def paramsGo (dists : List (String × Distributions)) :
    List (String × F64) → List (String × ExternalRepr) →
    Except PanicKind (List (String × ExternalRepr))
  | [], acc => .ok acc
  | (name, v) :: rest, acc =>
    match dists.lookup name with
    | none => .error .unwrapNone
    | some d =>
      match convertParam d v with
      | .error p => .error p
      | .ok ext => paramsGo dists rest ((name, ext) :: acc)

/-- `FrozenTrial::params`: the externally visible parameter map, derived by
converting every stored internal value back through its recorded
distribution. -/
def FrozenTrial.params (self : FrozenTrial) :
    Except PanicKind (List (String × ExternalRepr)) :=
  paramsGo self.distributions self.internal_params []

/-- Error values produced by `Storage` operations.  The source uses `anyhow`
messages: `alreadyFinished` is "Cannot update finished tirals" and `notFound`
is "Missing trial id/idx". -/
inductive StorageError where
  | alreadyFinished
  | notFound
deriving DecidableEq, Repr

/-- The `Storage` struct from the source: the append-only vector of trials. -/
structure Storage where
  trials : List FrozenTrial
deriving DecidableEq, Repr

/-- `Storage::new`. -/
def Storage.new : Storage :=
  { trials := [] }

/-- `Storage::create_new_trial`: appends a fresh `Running` record with value 0
and returns its identifier (the record's position). -/
def Storage.create_new_trial (self : Storage) : Nat × Storage :=
  let trial_id := self.trials.length
  let trial := FrozenTrial.new trial_id .running (.finite 0)
  (trial_id, { self with trials := self.trials ++ [trial] })

/-- `Storage::get_trial`: filter the vector by `trial_id` and clone the first
match; no match is the "Missing trial id" error. -/
def Storage.get_trial (self : Storage) (trial_id : Nat) :
    Except StorageError FrozenTrial :=
  let target := self.trials.filter (fun trial => trial.trial_id == trial_id)
  match target.head? with
  | some res => .ok res
  | none => .error .notFound

/-- Stable insertion into an ascending list: the new element goes before the
first position it is `le`-below-or-equal to, hence after every earlier
element it compares equal to. -/
def insertSorted {α : Type} (le : α → α → Bool) (a : α) : List α → List α
  | [] => [a]
  | b :: l => if le a b then a :: b :: l else b :: insertSorted le a l

/-- Stable ascending sort (insertion sort).  Rust's `Vec::sort_by` contract
is exactly "stable, ascending under the comparator"; a stable ascending sort
of a list under a total preorder is unique, so insertion sort is an exact
model of `sort_by`'s observable behavior. -/
def sortStable {α : Type} (le : α → α → Bool) : List α → List α
  | [] => []
  | a :: l => insertSorted le a (sortStable le l)

/-- `Storage::get_best_trial`: filter to `Completed` records with finite
value, stable-sort ascending by value (`sort_by` with
`partial_cmp(..).unwrap()`), and return the first element if any. -/
def Storage.get_best_trial (self : Storage) : Option FrozenTrial :=
  let completed_trials :=
    (self.trials.filter (fun trial => trial.state == FrozenTrialState.completed)).filter
      (fun trial => trial.value.isFinite)
  let sorted := sortStable (fun a b => F64.leB a.value b.value) completed_trials
  sorted.head?

/-- The scan loop shared verbatim by `set_trial_value`, `set_trial_state` and
`set_trial_param`: walk the whole vector with a running index, fail
immediately when a matching trial is finished, and remember the index of the
last match in `target_idx` (initially `-1`). -/
def scanIdx : List FrozenTrial → Nat → Nat → Int → Except StorageError Int
  | [], _, _, acc => .ok acc
  | trial :: rest, trial_id, i, acc =>
    if trial.trial_id = trial_id then
      if trial.is_finised then .error .alreadyFinished
      else scanIdx rest trial_id (i + 1) (i : Int)
    else scanIdx rest trial_id (i + 1) acc

/-- In-place update of one vector element, as `self.trials[i].field = v`. -/
def listModify {α : Type} (l : List α) (i : Nat) (f : α → α) : List α :=
  match l[i]? with
  | some a => l.set i (f a)
  | none => l

/-- `Storage::set_trial_value`: scan for the target, then assign
`trials[target_idx].value = value`.  The pair returns the call's `Result`
together with the post-state of `self`. -/
def Storage.set_trial_value (self : Storage) (trial_id : Nat) (value : F64) :
    Except StorageError Unit × Storage :=
  match scanIdx self.trials trial_id 0 (-1) with
  | .error e => (.error e, self)
  | .ok target_idx =>
    if target_idx < 0 then (.error .notFound, self)
    else
      (.ok (),
        { self with
          trials := listModify self.trials target_idx.toNat
            (fun t => { t with value := value }) })

/-- `Storage::set_trial_state`: scan for the target, then assign
`trials[target_idx].state = state`. -/
def Storage.set_trial_state (self : Storage) (trial_id : Nat)
    (state : FrozenTrialState) : Except StorageError Unit × Storage :=
  match scanIdx self.trials trial_id 0 (-1) with
  | .error e => (.error e, self)
  | .ok target_idx =>
    if target_idx < 0 then (.error .notFound, self)
    else
      (.ok (),
        { self with
          trials := listModify self.trials target_idx.toNat
            (fun t => { t with state := state }) })

/-- `Storage::set_trial_param`: scan for the target, then insert the value
into `internal_params` and the distribution into `distributions` under the
same name. -/
def Storage.set_trial_param (self : Storage) (trial_id : Nat) (name : String)
    (distribution : Distributions) (value : F64) :
    Except StorageError Unit × Storage :=
  match scanIdx self.trials trial_id 0 (-1) with
  | .error e => (.error e, self)
  | .ok target_idx =>
    if target_idx < 0 then (.error .notFound, self)
    else
      (.ok (),
        { self with
          trials := listModify self.trials target_idx.toNat
            (fun t =>
              { t with
                internal_params := mapInsert t.internal_params name value,
                distributions := mapInsert t.distributions name distribution }) })

/-- Bool-valued well-formedness of the trial vector: the record at position
`i` carries `trial_id = i` (established by construction: `create_new_trial`
appends with `trial_id = length`). -/
def idsFrom : Nat → List FrozenTrial → Bool
  | _, [] => true
  | i, trial :: rest => trial.trial_id == i && idsFrom (i + 1) rest

/-- A storage is well formed when identifiers equal positions (dense from 0). -/
def Storage.wf (self : Storage) : Bool :=
  idsFrom 0 self.trials

/-- Modelled from the spec (section 6): the injected random source, "an
injected capability exposing uniform float in [a,b] and uniform integer in
[a,b]".  The concrete generator (`rand::ThreadRng`) is outside the
repository; the model is a deterministic linear-congruential stream.  No
claim depends on the statistical distribution of the draws. -/
structure Rng where
  state : Nat
deriving DecidableEq, Repr

/-- One raw draw from the stream. -/
def Rng.next (self : Rng) : Nat × Rng :=
  (self.state, { state := (self.state * 1103515245 + 12345) % 2 ^ 31 })

/-- Modelled from the spec (section 6) and the `rand` crate contract used by
the source: `Uniform::from(low..=high)` for floats asserts `low <= high`
(IEEE comparison, hence false — a panic — whenever a bound is NaN) before any
value is drawn.  On a valid range the draw is reduced into `[low, high]`;
when a bound is non-finite the model returns the low bound (no claim depends
on that case). -/
def uniformF64Inclusive (low high : F64) (r : Rng) :
    Except PanicKind (F64 × Rng) :=
  if F64.ieeeLe low high then
    let (x, r1) := r.next
    match low, high with
    | .finite a, .finite b =>
      .ok (.finite (a + (b - a) * (((x % 1001 : Nat) : ℚ) / 1000)), r1)
    | lo, _ => .ok (lo, r1)
  else .error .uniformBadRange

/-- Modelled from the spec (section 6) and the `rand` crate contract:
`Uniform::from(low..=high)` for integers asserts `low <= high` before
drawing; a valid draw is reduced into `[low, high]`. -/
def uniformI64Inclusive (low high : Int) (r : Rng) :
    Except PanicKind (Int × Rng) :=
  if low ≤ high then
    let (x, r1) := r.next
    .ok (low + (x : Int) % (high - low + 1), r1)
  else .error .uniformBadRange

/-- Modelled from the spec: `f64::ln` is an external libm function.  Only its
special-value structure matters to any claim (negative argument gives NaN,
zero gives negative infinity, NaN propagates); the finite positive case uses
an executable rational stand-in for the logarithm. -/
def F64.ln : F64 → F64
  | .finite q =>
    if 0 < q then .finite ((q.num.natAbs.log2 : ℚ) - (q.den.log2 : ℚ))
    else if q = 0 then .negInf
    else .nan
  | .posInf => .posInf
  | .negInf => .nan
  | .nan => .nan

/-- Modelled from the spec: `f64::exp` is an external libm function.  Only
its special-value structure matters to any claim; the finite case uses an
executable positive rational stand-in. -/
def F64.exp : F64 → F64
  | .finite q => if 0 ≤ q then .finite (q + 1) else .finite (1 / (1 - q))
  | .posInf => .posInf
  | .negInf => .finite 0
  | .nan => .nan

/-- The `Sampler` struct from the source, holding the injected random source. -/
structure Sampler where
  rng : Rng
deriving DecidableEq, Repr

/-- `Sampler::new` (`rand::thread_rng()` modelled as the stream seeded at 0). -/
def Sampler.new : Sampler :=
  { rng := { state := 0 } }

/-- `Sampler::sample_independent`: for `Uni`, draw from `low..=high`; for
`LogUni`, draw from `ln low..=ln high` and exponentiate; any other variant
returns `0.0` (the source's wildcard arm). -/
def Sampler.sample_independent (self : Sampler) (_name : String)
    (distribution : Distributions) : Except PanicKind (F64 × Sampler) :=
  match distribution with
  | .uni dist =>
    match uniformF64Inclusive dist.low dist.high self.rng with
    | .error p => .error p
    | .ok (n, r1) => .ok (n, { self with rng := r1 })
  | .logUni dist =>
    let log_low := F64.ln dist.low
    let log_high := F64.ln dist.high
    match uniformF64Inclusive log_low log_high self.rng with
    | .error p => .error p
    | .ok (n, r1) => .ok (n.exp, { self with rng := r1 })
  | _ => .ok (.finite 0, self)

/-- `Sampler::sample_independent_int`: for `IntUni`, draw from `low..=high`;
any other variant returns `0` (the source's wildcard arm). -/
def Sampler.sample_independent_int (self : Sampler) (_name : String)
    (distribution : Distributions) : Except PanicKind (Int × Sampler) :=
  match distribution with
  | .intUni dist =>
    match uniformI64Inclusive dist.low dist.high self.rng with
    | .error p => .error p
    | .ok (n, r1) => .ok (n, { self with rng := r1 })
  | _ => .ok (0, self)

/-- `Sampler::sample_independent_category`: for `Categorical`, draw an index
from `0..choices.len()` (`gen_range` panics on an empty range) and clone that
label; any other variant returns the empty string. -/
def Sampler.sample_independent_category (self : Sampler) (_name : String)
    (distribution : Distributions) : Except PanicKind (String × Sampler) :=
  match distribution with
  | .categorical dist =>
    if dist.choices.length = 0 then .error .emptyRange
    else
      let (x, r1) := self.rng.next
      .ok (dist.choices.getD (x % dist.choices.length) "", { self with rng := r1 })
  | _ => .ok ("", self)

/-- The `Study` struct from the source. -/
structure Study where
  storage : Storage
  sampler : Sampler
deriving DecidableEq, Repr

/-- `Study::new`. -/
def Study.new (storage : Storage) (sampler : Sampler) : Study :=
  { storage := storage, sampler := sampler }

/-- `create_study`. -/
def create_study (storage : Storage) (sampler : Sampler) : Study :=
  { storage := storage, sampler := sampler }

/-- The `Trial` struct from the source: the per-run handle.  It owns a
`Study` value — in the source the driver passes `self.clone()`, a deep copy
of the driver's `Study`, into `Trial::new`. -/
structure Trial where
  study : Study
  trial_id : Nat

/-- `Trial::new`. -/
def Trial.new (study : Study) (trial_id : Nat) : Trial :=
  { study := study, trial_id := trial_id }

/-- `Trial::suggest_uniform`.  The initial `get_trial` result and the
`set_trial_param` result are both discarded by the source (no `?`, no
`unwrap`), so the function returns `Ok(param_value)` regardless of either;
the inner `Except StorageError` layer is the Rust `Result` return value and
the outer `Except PanicKind` layer models panics from sampling. -/
def Trial.suggest_uniform (self : Trial) (name : String) (low high : F64) :
    Except PanicKind (Except StorageError F64 × Trial) :=
  let _trial := self.study.storage.get_trial self.trial_id
  let distribution := UniformDistribution.new low high
  let distributionEnum := Distributions.uni (UniformDistribution.new low high)
  match self.study.sampler.sample_independent name distributionEnum with
  | .error p => .error p
  | .ok (param_value, sampler1) =>
    let param_value_in_internal_repr := distribution.to_internal_repr param_value
    let (_res, storage1) := self.study.storage.set_trial_param self.trial_id name
      (Distributions.uni distribution) param_value_in_internal_repr
    .ok (.ok param_value,
      { self with study := { storage := storage1, sampler := sampler1 } })

/-- `Trial::suggest_log` (same result-discarding as `suggest_uniform`). -/
def Trial.suggest_log (self : Trial) (name : String) (low high : F64) :
    Except PanicKind (Except StorageError F64 × Trial) :=
  let _trial := self.study.storage.get_trial self.trial_id
  let distribution := LogUniformDistribution.new low high
  let distributionEnum := Distributions.logUni (LogUniformDistribution.new low high)
  match self.study.sampler.sample_independent name distributionEnum with
  | .error p => .error p
  | .ok (param_value, sampler1) =>
    let param_value_in_internal_repr := distribution.to_internal_repr param_value
    let (_res, storage1) := self.study.storage.set_trial_param self.trial_id name
      (Distributions.logUni distribution) param_value_in_internal_repr
    .ok (.ok param_value,
      { self with study := { storage := storage1, sampler := sampler1 } })

/-- `Trial::suggest_categorical` (same result-discarding as `suggest_uniform`). -/
def Trial.suggest_categorical (self : Trial) (name : String)
    (choices : List String) : Except PanicKind (Except StorageError String × Trial) :=
  let _trial := self.study.storage.get_trial self.trial_id
  let distribution := CategoricalDistribution.new choices
  let distributionEnum := Distributions.categorical (CategoricalDistribution.new choices)
  match self.study.sampler.sample_independent_category name distributionEnum with
  | .error p => .error p
  | .ok (param_value, sampler1) =>
    let param_value_in_internal_repr := distribution.to_internal_repr param_value
    let (_res, storage1) := self.study.storage.set_trial_param self.trial_id name
      (Distributions.categorical distribution) param_value_in_internal_repr
    .ok (.ok param_value,
      { self with study := { storage := storage1, sampler := sampler1 } })

/-- `Trial::suggest_int` (same result-discarding as `suggest_uniform`). -/
def Trial.suggest_int (self : Trial) (name : String) (low high : Int) :
    Except PanicKind (Except StorageError Int × Trial) :=
  let _trial := self.study.storage.get_trial self.trial_id
  let distribution := IntUniformDistribution.new low high
  let distributionEnum := Distributions.intUni (IntUniformDistribution.new low high)
  match self.study.sampler.sample_independent_int name distributionEnum with
  | .error p => .error p
  | .ok (param_value, sampler1) =>
    let param_value_in_internal_repr := distribution.to_internal_repr param_value
    let (_res, storage1) := self.study.storage.set_trial_param self.trial_id name
      (Distributions.intUni distribution) param_value_in_internal_repr
    .ok (.ok param_value,
      { self with study := { storage := storage1, sampler := sampler1 } })

/-- The `Objective` type alias: `fn(&mut Trial) -> f64`, modelled with the
mutated handle returned alongside the score. -/
def Objective : Type :=
  Trial → F64 × Trial

/-- One iteration of `Study::optimize`: create a trial in the driver's
storage, build a handle around `self.clone()` (a deep copy — the handle's
study is a value copy of the driver's study), run the objective, then write
the returned value and the `Completed` state into the driver's own storage,
discarding both `Result`s as the source does. -/
def Study.optimizeStep (self : Study) (objective : Objective) : Study :=
  let (trial_id, storage1) := self.storage.create_new_trial
  let self1 : Study := { self with storage := storage1 }
  let trial := Trial.new self1 trial_id
  let (value, _trial1) := objective trial
  let (_r1, storage2) := self1.storage.set_trial_value trial_id value
  let self2 : Study := { self1 with storage := storage2 }
  let (_r2, storage3) := self2.storage.set_trial_state trial_id FrozenTrialState.completed
  { self2 with storage := storage3 }

/-- `Study::optimize`: run `n_trials` sequential iterations. -/
def Study.optimize (self : Study) (objective : Objective) (n_trials : Nat) : Study :=
  match n_trials with
  | 0 => self
  | n + 1 => (self.optimizeStep objective).optimize objective n

/-- `Study::best_trial`. -/
def Study.best_trial (self : Study) : Option FrozenTrial :=
  self.storage.get_best_trial

/-- The trial handle a given driver state builds for its next iteration
(the `create_new_trial` / `Trial::new(self.clone(), ..)` prefix of
`optimizeStep`), used to state what value the objective returned for each
trial. -/
def Study.nextHandle (self : Study) : Trial :=
  let (trial_id, storage1) := self.storage.create_new_trial
  Trial.new { self with storage := storage1 } trial_id

/-! ## Theorems -/

theorem roundHalfEven_one (n : Int) : roundHalfEven n 1 = n := by
  unfold roundHalfEven
  have h1 : n.emod 1 = 0 := Int.emod_one n
  have h2 : n.ediv 1 = n := Int.ediv_one n
  rw [h1, h2]
  norm_num

theorem i64AsF64_small (n : Int) (h : n.natAbs ≤ 2 ^ 53) : i64AsF64 n = (n : ℚ) := by
  unfold i64AsF64 f64UlpExp
  rw [show (64 : Nat) = 63 + 1 from rfl]
  simp only [ulpExpGo, if_pos h, pow_zero, roundHalfEven_one]

/-- C5 (amended): for an `IntUniformDistribution` with `low ≤ high` and an
integer `low ≤ n ≤ high` whose magnitude is at most `2^53` (the exactness
threshold of `f64`), the internal representation round-trips:
`to_external_repr (to_internal_repr n) = n`.  Beyond `2^53` the `i64 as f64`
cast rounds and the round-trip can change the integer (see the
counterexample). -/
theorem int_uniform_roundtrip (d : IntUniformDistribution) (n : Int)
    (_hlow : d.low ≤ d.high) (_h1 : d.low ≤ n) (_h2 : n ≤ d.high)
    (habs : n.natAbs ≤ 2 ^ 53) :
    d.to_external_repr (d.to_internal_repr n) = n := by
  unfold IntUniformDistribution.to_external_repr IntUniformDistribution.to_internal_repr
  rw [i64AsF64_small n habs]
  show max (-(2 ^ 63)) (min (2 ^ 63 - 1) (ratTrunc (n : ℚ))) = n
  unfold ratTrunc
  rw [Rat.num_intCast, Rat.den_intCast]
  simp only [Nat.cast_one, Int.tdiv_one]
  omega

/-- C5 witness: the spec's own example low=0, high=10, n=7 round-trips. -/
theorem int_uniform_roundtrip_witness :
    (IntUniformDistribution.new 0 10).to_external_repr
      ((IntUniformDistribution.new 0 10).to_internal_repr 7) = 7 :=
  int_uniform_roundtrip (IntUniformDistribution.new 0 10) 7 (by decide)
    (by decide) (by decide) (by decide)

/-- C5 counterexample: for bounds low=0, high=2^54 (within `i64`) and
n = 2^53 + 1 (inside the bounds), the round-trip returns 2^53, not n: the
`i64 as f64` cast is not exact near the extremes of the 64-bit range, it
rounds to the nearest representable double. -/
theorem int_uniform_roundtrip_counterexample :
    (0 : Int) ≤ 2 ^ 53 + 1 ∧ ((2 ^ 53 + 1 : Int) ≤ 2 ^ 54) ∧
    (IntUniformDistribution.new 0 (2 ^ 54)).to_external_repr
      ((IntUniformDistribution.new 0 (2 ^ 54)).to_internal_repr (2 ^ 53 + 1)) ≠
      2 ^ 53 + 1 := by
  refine ⟨by norm_num, by norm_num, ?_⟩
  decide

/-- C8: `CategoricalDistribution.to_internal_repr` is total: a label present
in `choices` maps to the position of its first occurrence as a float, an
absent label maps to `0.0`; and `to_external_repr` returns `choices[i]` for
every index `i` that is a valid position (the `i < 2^64` hypothesis is the
`usize` range of the cast inside the source's indexing). -/
theorem categorical_internal_total_external_ok (dist : CategoricalDistribution)
    (label : String) :
    (label ∈ dist.choices →
      ∃ i : Nat, dist.choices.get? i = some label ∧
        (∀ j : Nat, j < i → dist.choices.get? j ≠ some label) ∧
        dist.to_internal_repr label = .finite (i : ℚ)) ∧
    (label ∉ dist.choices → dist.to_internal_repr label = .finite 0) ∧
    (∀ i : Nat, i < dist.choices.length → i < 2 ^ 64 →
      dist.to_external_repr (.finite (i : ℚ)) = .ok (dist.choices.getD i "")) := by
  refine ⟨?_, ?_, ?_⟩
  · intro hmem
    match hidx : dist.choices.findIdx? (fun choice => choice == label) with
    | none =>
      rw [List.findIdx?_eq_none_iff] at hidx
      have := hidx label hmem
      simp at this
    | some i =>
      rw [List.findIdx?_eq_some_iff_getElem] at hidx
      obtain ⟨hlen, hp, hprev⟩ := hidx
      refine ⟨i, ?_, ?_, ?_⟩
      · rw [List.get?_eq_getElem?, List.getElem?_eq_getElem hlen]
        simpa using hp
      · intro j hj
        rw [List.get?_eq_getElem?, List.getElem?_eq_getElem (Nat.lt_trans hj hlen)]
        have := hprev j hj
        simpa using this
      · unfold CategoricalDistribution.to_internal_repr
        have : dist.choices.findIdx? (fun choice => choice == label) = some i := by
          rw [List.findIdx?_eq_some_iff_getElem]
          exact ⟨hlen, hp, hprev⟩
        rw [this]
        rfl
  · intro hmem
    have hnone : dist.choices.findIdx? (fun choice => choice == label) = none := by
      rw [List.findIdx?_eq_none_iff]
      intro x hx
      simp only [beq_eq_false_iff_ne, ne_eq]
      rintro rfl
      exact hmem hx
    unfold CategoricalDistribution.to_internal_repr
    rw [hnone]
    norm_num
  · intro i hlen hsz
    unfold CategoricalDistribution.to_external_repr
    have hnum : ratTrunc ((i : Nat) : ℚ) = (i : Int) := by
      unfold ratTrunc
      rw [Rat.num_natCast, Rat.den_natCast]
      simp
    have htr : F64.toUsize (.finite (i : ℚ)) = i := by
      simp only [F64.toUsize, hnum]
      omega
    rw [htr, List.getElem?_eq_getElem hlen,
      List.getD_eq_getElem?_getD, List.getElem?_eq_getElem hlen]
    rfl

/-- C8 witness: with choices `["a", "b", "c"]`, index 1 converts back to the
label `"b"`. -/
theorem categorical_internal_total_external_ok_witness :
    (1 : Nat) < 3 ∧
    (CategoricalDistribution.new ["a", "b", "c"]).to_external_repr
      (.finite (1 : ℚ)) = .ok "b" := by
  refine ⟨by decide, ?_⟩
  have h := (categorical_internal_total_external_ok
    (CategoricalDistribution.new ["a", "b", "c"]) "b").2.2 1 (by decide) (by decide)
  simpa using h

theorem idsFrom_cons {t : FrozenTrial} {l : List FrozenTrial} {i : Nat} :
    idsFrom i (t :: l) = true ↔ t.trial_id = i ∧ idsFrom (i + 1) l = true := by
  simp [idsFrom]

theorem idsFrom_lower : ∀ (l : List FrozenTrial) (i : Nat), idsFrom i l = true →
    ∀ t ∈ l, i ≤ t.trial_id
  | [], _, _, t, ht => absurd ht (List.not_mem_nil t)
  | u :: rest, i, h, t, ht => by
    obtain ⟨hu, hrest⟩ := idsFrom_cons.mp h
    rcases List.mem_cons.mp ht with rfl | hmem
    · omega
    · have := idsFrom_lower rest (i + 1) hrest t hmem
      omega

theorem scanIdx_no_match : ∀ (l : List FrozenTrial) (tid i : Nat) (acc : Int),
    (∀ t ∈ l, t.trial_id ≠ tid) → scanIdx l tid i acc = .ok acc
  | [], _, _, _, _ => rfl
  | u :: rest, tid, i, acc, h => by
    have hu : u.trial_id ≠ tid := h u (List.mem_cons_self u rest)
    unfold scanIdx
    rw [if_neg hu]
    exact scanIdx_no_match rest tid (i + 1) acc
      (fun t ht => h t (List.mem_cons_of_mem u ht))

/-- Default record used only as the (never-reached) fallback of `List.getD`
in lemma statements about well-formed storages. -/
def trialDefault : FrozenTrial :=
  FrozenTrial.new 0 .running (.finite 0)

theorem scanIdx_char : ∀ (l : List FrozenTrial) (tid i : Nat) (acc : Int),
    idsFrom i l = true →
    (¬(i ≤ tid ∧ tid - i < l.length) → scanIdx l tid i acc = .ok acc) ∧
    (tid - i < l.length → i ≤ tid →
      scanIdx l tid i acc =
        if (l.getD (tid - i) trialDefault).is_finised then .error .alreadyFinished
        else .ok (tid : Int))
  | [], tid, i, acc, _ => by
    refine ⟨fun _ => rfl, fun hj _ => absurd hj (by simp)⟩
  | u :: rest, tid, i, acc, h => by
    obtain ⟨hu, hrest⟩ := idsFrom_cons.mp h
    constructor
    · intro hno
      simp only [List.length_cons] at hno
      have hne : u.trial_id ≠ tid := by omega
      unfold scanIdx
      rw [if_neg hne]
      exact (scanIdx_char rest tid (i + 1) acc hrest).1 (by omega)
    · intro hj hle
      by_cases heq : i = tid
      · have hzero : tid - i = 0 := by omega
        unfold scanIdx
        rw [if_pos (by omega : u.trial_id = tid), hzero, List.getD_cons_zero]
        by_cases hf : u.is_finised
        · rw [if_pos hf, if_pos hf]
        · rw [if_neg hf, if_neg hf]
          rw [scanIdx_no_match rest tid (i + 1) (i : Int)
            (fun t ht => by have := idsFrom_lower rest (i + 1) hrest t ht; omega)]
          rw [show ((i : Int) = (tid : Int)) by omega]
      · obtain ⟨k, hk⟩ : ∃ k, tid - i = k + 1 := ⟨tid - i - 1, by omega⟩
        unfold scanIdx
        rw [if_neg (by omega : ¬u.trial_id = tid)]
        have hj2 : tid - (i + 1) < rest.length := by
          simp only [List.length_cons] at hj
          omega
        rw [(scanIdx_char rest tid (i + 1) acc hrest).2 hj2 (by omega)]
        rw [hk, List.getD_cons_succ, show (tid - (i + 1)) = k from (by omega)]

theorem is_finised_iff (t : FrozenTrial) : t.is_finised = true ↔ t.state ≠ .running := by
  cases h : t.state <;> simp [FrozenTrial.is_finised, h]

theorem is_finised_false (t : FrozenTrial) (h : t.state = .running) :
    t.is_finised = false := by
  simp [FrozenTrial.is_finised, h]

theorem listModify_eq_set {α : Type} (l : List α) (i : Nat) (f : α → α) (d : α)
    (h : i < l.length) : listModify l i f = l.set i (f (l.getD i d)) := by
  unfold listModify
  rw [List.getElem?_eq_getElem h, List.getD_eq_getElem?_getD,
    List.getElem?_eq_getElem h]
  rfl

theorem scanIdx_storage (s : Storage) (tid : Nat) (hwf : s.wf = true) :
    (s.trials.length ≤ tid → scanIdx s.trials tid 0 (-1) = .ok (-1)) ∧
    (tid < s.trials.length →
      scanIdx s.trials tid 0 (-1) =
        if (s.trials.getD tid trialDefault).is_finised then .error .alreadyFinished
        else .ok (tid : Int)) := by
  have h := scanIdx_char s.trials tid 0 (-1) hwf
  constructor
  · intro hge
    exact h.1 (by omega)
  · intro hlt
    have := h.2 (by omega) (by omega)
    simpa using this

/-- C6: each of `set_trial_value`, `set_trial_state` and `set_trial_param`
fails with `AlreadyFinished` when the targeted record's state is not
`Running`, fails with `NotFound` when no record has the given id, and in
every failure case the post-state of the Store equals the pre-state; on
success exactly the targeted fields are updated — `set_trial_param` updates
both the `internal_params` and the `distributions` entry for the name
(all-or-nothing). -/
theorem storage_setters_all_or_nothing (s : Storage) (tid : Nat) (v : F64)
    (st : FrozenTrialState) (name : String) (d : Distributions) (x : F64)
    (hwf : s.wf = true) :
    (s.trials.length ≤ tid →
      s.set_trial_value tid v = (.error .notFound, s) ∧
      s.set_trial_state tid st = (.error .notFound, s) ∧
      s.set_trial_param tid name d x = (.error .notFound, s)) ∧
    (tid < s.trials.length →
      ((s.trials.getD tid trialDefault).state ≠ .running →
        s.set_trial_value tid v = (.error .alreadyFinished, s) ∧
        s.set_trial_state tid st = (.error .alreadyFinished, s) ∧
        s.set_trial_param tid name d x = (.error .alreadyFinished, s)) ∧
      ((s.trials.getD tid trialDefault).state = .running →
        s.set_trial_value tid v =
          (.ok (), ⟨s.trials.set tid
            { s.trials.getD tid trialDefault with value := v }⟩) ∧
        s.set_trial_state tid st =
          (.ok (), ⟨s.trials.set tid
            { s.trials.getD tid trialDefault with state := st }⟩) ∧
        s.set_trial_param tid name d x =
          (.ok (), ⟨s.trials.set tid
            { s.trials.getD tid trialDefault with
              internal_params :=
                mapInsert (s.trials.getD tid trialDefault).internal_params name x,
              distributions :=
                mapInsert (s.trials.getD tid trialDefault).distributions name d }⟩))) := by
  have hscan := scanIdx_storage s tid hwf
  refine ⟨?_, ?_⟩
  · intro hge
    have h1 := hscan.1 hge
    unfold Storage.set_trial_value Storage.set_trial_state Storage.set_trial_param
    rw [h1]
    norm_num
  · intro hlt
    constructor
    · intro hstate
      have hf : (s.trials.getD tid trialDefault).is_finised = true :=
        (is_finised_iff _).mpr hstate
      have h1 := hscan.2 hlt
      rw [if_pos hf] at h1
      unfold Storage.set_trial_value Storage.set_trial_state Storage.set_trial_param
      rw [h1]
      exact ⟨rfl, rfl, rfl⟩
    · intro hstate
      have hf : (s.trials.getD tid trialDefault).is_finised = false :=
        is_finised_false _ hstate
      have h1 := hscan.2 hlt
      rw [if_neg (by rw [hf]; exact Bool.false_ne_true)] at h1
      have hmod : ∀ f : FrozenTrial → FrozenTrial,
          listModify s.trials ((tid : Int)).toNat f =
            s.trials.set tid (f (s.trials.getD tid trialDefault)) := by
        intro f
        rw [Int.toNat_natCast]
        exact listModify_eq_set s.trials tid f trialDefault hlt
      refine ⟨?_, ?_, ?_⟩
      · simp only [Storage.set_trial_value, h1]
        rw [if_neg (by omega : ¬((tid : Int) < 0)), hmod]
      · simp only [Storage.set_trial_state, h1]
        rw [if_neg (by omega : ¬((tid : Int) < 0)), hmod]
      · simp only [Storage.set_trial_param, h1]
        rw [if_neg (by omega : ¬((tid : Int) < 0)), hmod]

/-- C6 witness: on a store whose only trial is `Completed`, `set_trial_value`
fails with `AlreadyFinished` and leaves the store unchanged. -/
theorem storage_setters_all_or_nothing_witness :
    (Storage.mk [FrozenTrial.mk 0 .completed (.finite 1) [] []]).set_trial_value 0
      (.finite 2) =
      (.error .alreadyFinished, Storage.mk [FrozenTrial.mk 0 .completed (.finite 1) [] []]) := by
  have h := storage_setters_all_or_nothing
    (Storage.mk [FrozenTrial.mk 0 .completed (.finite 1) [] []]) 0 (.finite 2)
    .completed "x" (Distributions.uni (UniformDistribution.new (.finite 0) (.finite 1)))
    (.finite 0) (by decide)
  exact ((h.2 (by decide)).1 (by decide)).1

theorem idsFrom_append_singleton : ∀ (l : List FrozenTrial) (i : Nat) (t : FrozenTrial),
    idsFrom i l = true → t.trial_id = i + l.length → idsFrom i (l ++ [t]) = true
  | [], i, t, _, ht => by simp [idsFrom, ht]
  | u :: rest, i, t, h, ht => by
    obtain ⟨hu, hrest⟩ := idsFrom_cons.mp h
    simp only [List.cons_append]
    refine idsFrom_cons.mpr ⟨hu, ?_⟩
    refine idsFrom_append_singleton rest (i + 1) t hrest ?_
    simp only [List.length_cons] at ht
    omega

theorem filter_tid_char : ∀ (l : List FrozenTrial) (tid i : Nat),
    idsFrom i l = true →
    l.filter (fun t => t.trial_id == tid) =
      if i ≤ tid ∧ tid - i < l.length then [l.getD (tid - i) trialDefault] else []
  | [], tid, i, _ => by simp
  | u :: rest, tid, i, h => by
    obtain ⟨hu, hrest⟩ := idsFrom_cons.mp h
    by_cases heq : i = tid
    · rw [List.filter_cons_of_pos (by simp [hu, heq])]
      have hrestnil : rest.filter (fun t => t.trial_id == tid) = [] := by
        rw [filter_tid_char rest tid (i + 1) hrest, if_neg (by omega)]
      rw [hrestnil, if_pos (by simp only [List.length_cons]; omega)]
      rw [show tid - i = 0 from (by omega), List.getD_cons_zero]
    · rw [List.filter_cons_of_neg (by simp [hu, heq])]
      rw [filter_tid_char rest tid (i + 1) hrest]
      by_cases hc : i + 1 ≤ tid ∧ tid - (i + 1) < rest.length
      · rw [if_pos hc, if_pos (by simp only [List.length_cons]; omega)]
        obtain ⟨k, hk⟩ : ∃ k, tid - i = k + 1 := ⟨tid - i - 1, by omega⟩
        rw [hk, List.getD_cons_succ, show tid - (i + 1) = k from (by omega)]
      · rw [if_neg hc, if_neg (by simp only [List.length_cons]; omega)]

/-- C7: `create_new_trial` is total (never fails), appends a `Running` record
with value 0 and empty parameter and distribution maps, returns the record's
position as its identifier, and preserves well-formedness (identifiers stay
dense and increasing from 0); `get_trial` fails with `NotFound` exactly when
the identifier is at least the number of trials created so far, and returns
the stored record otherwise. -/
theorem create_and_get_trial_spec (s : Storage) (hwf : s.wf = true) :
    (s.create_new_trial.1 = s.trials.length ∧
     s.create_new_trial.2.trials =
       s.trials ++ [FrozenTrial.new s.trials.length .running (.finite 0)] ∧
     s.create_new_trial.2.wf = true) ∧
    (∀ tid : Nat,
      (s.trials.length ≤ tid → s.get_trial tid = .error .notFound) ∧
      (tid < s.trials.length → s.get_trial tid = .ok (s.trials.getD tid trialDefault))) := by
  refine ⟨⟨rfl, rfl, ?_⟩, ?_⟩
  · show idsFrom 0 (s.trials ++ [FrozenTrial.new s.trials.length .running (.finite 0)]) = true
    exact idsFrom_append_singleton s.trials 0 _ hwf (by simp [FrozenTrial.new])
  · intro tid
    constructor
    · intro hge
      unfold Storage.get_trial
      rw [filter_tid_char s.trials tid 0 hwf, if_neg (by omega)]
      rfl
    · intro hlt
      unfold Storage.get_trial
      rw [filter_tid_char s.trials tid 0 hwf, if_pos (by omega), Nat.sub_zero]
      rfl

/-- C7 witness: on the empty store the first identifier is 0 and looking up
identifier 3 fails with `NotFound`. -/
theorem create_and_get_trial_spec_witness :
    Storage.new.create_new_trial.1 = 0 ∧
    Storage.new.get_trial 3 = .error .notFound := by
  have h := create_and_get_trial_spec Storage.new (by decide)
  exact ⟨h.1.1, (h.2 3).1 (by decide)⟩

/-- Key-set agreement between a record's two per-parameter maps: every name
stored in `internal_params` is also a key of `distributions` and conversely
(as lists of keys, they are equal). -/
def keysAligned (t : FrozenTrial) : Prop :=
  t.internal_params.map Prod.fst = t.distributions.map Prod.fst

theorem map_fst_filter_ne {α : Type} (m : List (String × α)) (k : String) :
    (m.filter (fun p => p.1 ≠ k)).map Prod.fst =
      (m.map Prod.fst).filter (fun s => s ≠ k) := by
  induction m with
  | nil => rfl
  | cons p rest ih =>
    by_cases hp : p.1 = k
    · rw [List.filter_cons_of_neg (by simp [hp]), List.map_cons,
        List.filter_cons_of_neg (by simp [hp]), ih]
    · rw [List.filter_cons_of_pos (by simp [hp]), List.map_cons, List.map_cons,
        List.filter_cons_of_pos (by simp [hp]), ih]

theorem mapInsert_keys {α : Type} (m : List (String × α)) (k : String) (v : α) :
    (mapInsert m k v).map Prod.fst =
      k :: (m.map Prod.fst).filter (fun s => s ≠ k) := by
  unfold mapInsert
  rw [List.map_cons, map_fst_filter_ne]

theorem keysAligned_insert (t : FrozenTrial) (name : String) (x : F64)
    (d : Distributions) (h : keysAligned t) :
    keysAligned
      { t with internal_params := mapInsert t.internal_params name x,
               distributions := mapInsert t.distributions name d } := by
  unfold keysAligned at h ⊢
  simp only [mapInsert_keys, h]

theorem aligned_listModify (l : List FrozenTrial) (i : Nat)
    (f : FrozenTrial → FrozenTrial) (hf : ∀ t, keysAligned t → keysAligned (f t))
    (h : ∀ t ∈ l, keysAligned t) : ∀ t ∈ listModify l i f, keysAligned t := by
  unfold listModify
  cases hg : l[i]? with
  | none => exact h
  | some a =>
    intro t ht
    rcases List.mem_or_eq_of_mem_set ht with hmem | rfl
    · exact h t hmem
    · exact hf a (h a (List.getElem?_mem hg))

theorem convertParam_no_unwrap (d : Distributions) (v : F64) :
    convertParam d v ≠ .error .unwrapNone := by
  cases d with
  | uni dist => simp [convertParam]
  | intUni dist => simp [convertParam]
  | logUni dist => simp [convertParam]
  | categorical dist =>
    unfold convertParam CategoricalDistribution.to_external_repr
    cases hx : dist.choices[v.toUsize]? <;> simp [hx, Except.map]

theorem paramsGo_no_unwrap (dists : List (String × Distributions)) :
    ∀ (entries : List (String × F64)) (acc : List (String × ExternalRepr)),
    (∀ p ∈ entries, (dists.lookup p.1).isSome) →
    paramsGo dists entries acc ≠ .error .unwrapNone
  | [], acc, _ => by simp [paramsGo]
  | (name, v) :: rest, acc, h => by
    unfold paramsGo
    cases hl : dists.lookup name with
    | none =>
      have := h (name, v) (List.mem_cons_self _ _)
      rw [hl] at this
      simp at this
    | some d =>
      show (match convertParam d v with
        | Except.error p => Except.error p
        | Except.ok ext => paramsGo dists rest ((name, ext) :: acc)) ≠
          Except.error PanicKind.unwrapNone
      cases hc : convertParam d v with
      | error p =>
        have hne := convertParam_no_unwrap d v
        rw [hc] at hne
        simpa using hne
      | ok ext =>
        exact paramsGo_no_unwrap dists rest ((name, ext) :: acc)
          (fun p hp => h p (List.mem_cons_of_mem _ hp))

/-- C9: the key sets of `internal_params` and `distributions` agree on every
record of every reachable store — they agree on a fresh store and on every
new record, and every Store operation preserves the agreement
(`set_trial_param` inserts under the same name into both maps) — and under
that agreement `FrozenTrial::params` never hits its `unwrap` of a missing
distribution (modelled: the result is never the `unwrapNone` panic). -/
theorem params_keys_invariant :
    (∀ t ∈ Storage.new.trials, keysAligned t) ∧
    (∀ tid state value, keysAligned (FrozenTrial.new tid state value)) ∧
    (∀ s : Storage, (∀ t ∈ s.trials, keysAligned t) →
      ∀ t ∈ s.create_new_trial.2.trials, keysAligned t) ∧
    (∀ (s : Storage) (tid : Nat) (v : F64), (∀ t ∈ s.trials, keysAligned t) →
      ∀ t ∈ (s.set_trial_value tid v).2.trials, keysAligned t) ∧
    (∀ (s : Storage) (tid : Nat) (st : FrozenTrialState),
      (∀ t ∈ s.trials, keysAligned t) →
      ∀ t ∈ (s.set_trial_state tid st).2.trials, keysAligned t) ∧
    (∀ (s : Storage) (tid : Nat) (name : String) (d : Distributions) (x : F64),
      (∀ t ∈ s.trials, keysAligned t) →
      ∀ t ∈ (s.set_trial_param tid name d x).2.trials, keysAligned t) ∧
    (∀ t : FrozenTrial, keysAligned t → t.params ≠ .error .unwrapNone) := by
  refine ⟨by simp [Storage.new], ?_, ?_, ?_, ?_, ?_, ?_⟩
  · intro tid state value
    rfl
  · intro s h t ht
    unfold Storage.create_new_trial at ht
    rcases List.mem_append.mp ht with hmem | hmem
    · exact h t hmem
    · rcases List.mem_singleton.mp hmem with rfl
      rfl
  · intro s tid v h
    unfold Storage.set_trial_value
    cases hs : scanIdx s.trials tid 0 (-1) with
    | error e => simpa using h
    | ok idx =>
      by_cases hneg : idx < 0
      · simpa [hneg] using h
      · simpa [hneg] using
          aligned_listModify s.trials idx.toNat
            (fun t => { t with value := v }) (fun t ht => ht) h
  · intro s tid st h
    unfold Storage.set_trial_state
    cases hs : scanIdx s.trials tid 0 (-1) with
    | error e => simpa using h
    | ok idx =>
      by_cases hneg : idx < 0
      · simpa [hneg] using h
      · simpa [hneg] using
          aligned_listModify s.trials idx.toNat
            (fun t => { t with state := st }) (fun t ht => ht) h
  · intro s tid name d x h
    unfold Storage.set_trial_param
    cases hs : scanIdx s.trials tid 0 (-1) with
    | error e => simpa using h
    | ok idx =>
      by_cases hneg : idx < 0
      · simpa [hneg] using h
      · simpa [hneg] using
          aligned_listModify s.trials idx.toNat
            (fun t => { t with internal_params := mapInsert t.internal_params name x,
                               distributions := mapInsert t.distributions name d })
            (fun t ht => keysAligned_insert t name x d ht) h
  · intro t halign
    unfold FrozenTrial.params
    refine paramsGo_no_unwrap t.distributions t.internal_params [] ?_
    intro p hp
    rw [List.lookup_isSome_iff]
    have hkey : p.1 ∈ t.distributions.map Prod.fst := by
      rw [← halign]
      exact List.mem_map_of_mem Prod.fst hp
    obtain ⟨q, hq, hqe⟩ := List.mem_map.mp hkey
    exact ⟨q, hq, by simp [hqe]⟩

/-- C9 witness: a record holding one parameter under the name that also keys
its distribution map derives its external parameters without hitting the
missing-distribution unwrap. -/
theorem params_keys_invariant_witness :
    (FrozenTrial.mk 0 .running (.finite 0) [("x", .finite 1)]
      [("x", .intUni (IntUniformDistribution.new 0 10))]).params ≠
      .error .unwrapNone := by
  exact params_keys_invariant.2.2.2.2.2.2 _ (by unfold keysAligned; rfl)

theorem F64.leB_refl (a : F64) : F64.leB a a = true := by
  cases a <;> simp [F64.leB]

theorem F64.leB_trans (a b c : F64) (hab : F64.leB a b = true)
    (hbc : F64.leB b c = true) : F64.leB a c = true := by
  cases a <;> cases b <;> cases c <;> simp_all [F64.leB] <;> exact le_trans hab hbc

theorem F64.leB_total (a b : F64) : F64.leB a b = true ∨ F64.leB b a = true := by
  cases a <;> cases b <;> simp [F64.leB] <;> exact le_total _ _

/-- On finite values the sort comparator is exactly the order of the exact
rational payloads (the IEEE order of the doubles). -/
theorem F64.leB_finite_iff (a b : ℚ) :
    F64.leB (.finite a) (.finite b) = true ↔ a ≤ b := by
  simp [F64.leB]

theorem insertSorted_perm {α : Type} (le : α → α → Bool) (a : α) :
    ∀ l : List α, List.Perm (insertSorted le a l) (a :: l)
  | [] => List.Perm.refl _
  | b :: l => by
    unfold insertSorted
    by_cases h : le a b
    · rw [if_pos h]
    · rw [if_neg h]
      exact ((insertSorted_perm le a l).cons b).trans (List.Perm.swap a b l)

theorem sortStable_perm {α : Type} (le : α → α → Bool) :
    ∀ l : List α, List.Perm (sortStable le l) l
  | [] => List.Perm.refl _
  | a :: l =>
    (insertSorted_perm le a (sortStable le l)).trans ((sortStable_perm le l).cons a)

theorem idsFrom_pairwise : ∀ (l : List FrozenTrial) (i : Nat), idsFrom i l = true →
    l.Pairwise (fun a b => a.trial_id < b.trial_id)
  | [], _, _ => List.Pairwise.nil
  | u :: rest, i, h => by
    obtain ⟨hu, hrest⟩ := idsFrom_cons.mp h
    refine List.Pairwise.cons ?_ (idsFrom_pairwise rest (i + 1) hrest)
    intro t ht
    have := idsFrom_lower rest (i + 1) hrest t ht
    omega

/-- The head of the stable ascending sort of a list whose trial identifiers
strictly increase is a member that is minimal under the comparator, and among
the comparator-equal members it is the one with the least trial identifier. -/
theorem sortStable_head_spec :
    ∀ (l : List FrozenTrial),
      l.Pairwise (fun a b => a.trial_id < b.trial_id) →
      ∀ r, (sortStable (fun a b => F64.leB a.value b.value) l).head? = some r →
      r ∈ l ∧ (∀ x ∈ l, F64.leB r.value x.value = true) ∧
        (∀ x ∈ l, F64.leB x.value r.value = true → r.trial_id ≤ x.trial_id)
  | [], _, r, h => by simp [sortStable] at h
  | a :: t, hp, r, h => by
    rcases List.pairwise_cons.mp hp with ⟨hid, hp2⟩
    rw [show sortStable (fun a b => F64.leB a.value b.value) (a :: t) =
      insertSorted (fun a b => F64.leB a.value b.value) a
        (sortStable (fun a b => F64.leB a.value b.value) t) from rfl] at h
    cases hs : sortStable (fun a b => F64.leB a.value b.value) t with
    | nil =>
      have htnil : t = [] := by
        have hlen := (sortStable_perm (fun a b => F64.leB a.value b.value) t).length_eq
        rw [hs] at hlen
        exact List.eq_nil_of_length_eq_zero (by simpa using hlen.symm)
      subst htnil
      rw [hs] at h
      simp only [insertSorted, List.head?_cons, Option.some.injEq] at h
      subst h
      refine ⟨List.mem_singleton_self a, ?_, ?_⟩
      · intro x hx
        rcases List.mem_singleton.mp hx with rfl
        exact F64.leB_refl _
      · intro x hx _
        rcases List.mem_singleton.mp hx with rfl
        exact Nat.le_refl _
    | cons b t2 =>
      rw [hs] at h
      have hins : insertSorted (fun a b => F64.leB a.value b.value) a (b :: t2) =
          if F64.leB a.value b.value then a :: b :: t2
          else b :: insertSorted (fun a b => F64.leB a.value b.value) a t2 := rfl
      have hhead : (sortStable (fun a b => F64.leB a.value b.value) t).head? = some b := by
        rw [hs]
        rfl
      obtain ⟨hbmem, hbmin, hbtie⟩ := sortStable_head_spec t hp2 b hhead
      by_cases hab : F64.leB a.value b.value = true
      · rw [hins, if_pos hab] at h
        simp only [List.head?_cons, Option.some.injEq] at h
        subst h
        refine ⟨List.mem_cons_self _ _, ?_, ?_⟩
        · intro x hx
          rcases List.mem_cons.mp hx with rfl | hxt
          · exact F64.leB_refl _
          · exact F64.leB_trans _ _ _ hab (hbmin x hxt)
        · intro x hx _
          rcases List.mem_cons.mp hx with rfl | hxt
          · exact Nat.le_refl _
          · exact Nat.le_of_lt (hid x hxt)
      · rw [hins, if_neg (by simpa using hab)] at h
        simp only [List.head?_cons, Option.some.injEq] at h
        subst h
        refine ⟨List.mem_cons_of_mem a hbmem, ?_, ?_⟩
        · intro x hx
          rcases List.mem_cons.mp hx with rfl | hxt
          · rcases F64.leB_total x.value b.value with hle | hle
            · exact absurd hle hab
            · exact hle
          · exact hbmin x hxt
        · intro x hx hxr
          rcases List.mem_cons.mp hx with rfl | hxt
          · exact absurd hxr hab
          · exact hbtie x hxt hxr

/-- C4: `get_best_trial` considers exactly the records that are `Completed`
with a finite value: it returns `none` when no such record exists, and
otherwise the considered record of minimum value (`F64.leB` coincides with
the order of the exact rational payloads on finite values, see
`F64.leB_finite_iff`), with ties broken by the lowest trial identifier. -/
theorem get_best_trial_spec (s : Storage) (hwf : s.wf = true) :
    (s.get_best_trial = none ↔
      ∀ r ∈ s.trials, ¬(r.state = FrozenTrialState.completed ∧ r.value.isFinite = true)) ∧
    (∀ r : FrozenTrial, s.get_best_trial = some r →
      r ∈ s.trials ∧ r.state = FrozenTrialState.completed ∧ r.value.isFinite = true ∧
      (∀ x ∈ s.trials, x.state = FrozenTrialState.completed → x.value.isFinite = true →
        F64.leB r.value x.value = true) ∧
      (∀ x ∈ s.trials, x.state = FrozenTrialState.completed → x.value.isFinite = true →
        x.value = r.value → r.trial_id ≤ x.trial_id)) := by
  have hmem2 : ∀ x : FrozenTrial,
      x ∈ (s.trials.filter (fun t => t.state == FrozenTrialState.completed)).filter
            (fun t => t.value.isFinite) ↔
        (x ∈ s.trials ∧ x.state = FrozenTrialState.completed ∧ x.value.isFinite = true) := by
    intro x
    simp only [List.mem_filter, beq_iff_eq]
    tauto
  have hp2 : ((s.trials.filter (fun t => t.state == FrozenTrialState.completed)).filter
      (fun t => t.value.isFinite)).Pairwise (fun a b => a.trial_id < b.trial_id) :=
    ((idsFrom_pairwise s.trials 0 hwf).sublist (List.filter_sublist _)).sublist
      (List.filter_sublist _)
  constructor
  · simp only [Storage.get_best_trial]
    constructor
    · intro h r hr hcond
      have hnil : sortStable (fun a b => F64.leB a.value b.value)
          ((s.trials.filter (fun t => t.state == FrozenTrialState.completed)).filter
            (fun t => t.value.isFinite)) = [] := by
        cases hcase : sortStable (fun a b => F64.leB a.value b.value)
            ((s.trials.filter (fun t => t.state == FrozenTrialState.completed)).filter
              (fun t => t.value.isFinite)) with
        | nil => rfl
        | cons u v =>
          rw [hcase] at h
          simp at h
      have hlen := (sortStable_perm (fun a b => F64.leB a.value b.value)
        ((s.trials.filter (fun t => t.state == FrozenTrialState.completed)).filter
          (fun t => t.value.isFinite))).length_eq
      rw [hnil] at hlen
      have hempty : ((s.trials.filter (fun t => t.state == FrozenTrialState.completed)).filter
          (fun t => t.value.isFinite)) = [] :=
        List.eq_nil_of_length_eq_zero (by simpa using hlen.symm)
      have : r ∈ ((s.trials.filter (fun t => t.state == FrozenTrialState.completed)).filter
          (fun t => t.value.isFinite)) := (hmem2 r).mpr ⟨hr, hcond.1, hcond.2⟩
      rw [hempty] at this
      exact List.not_mem_nil r this
    · intro hall
      have hempty : ((s.trials.filter (fun t => t.state == FrozenTrialState.completed)).filter
          (fun t => t.value.isFinite)) = [] := by
        rw [List.eq_nil_iff_forall_not_mem]
        intro x hx
        have := (hmem2 x).mp hx
        exact hall x this.1 ⟨this.2.1, this.2.2⟩
      rw [hempty]
      rfl
  · intro r hsome
    simp only [Storage.get_best_trial] at hsome
    obtain ⟨hrmem, hmin, htie⟩ := sortStable_head_spec _ hp2 r hsome
    have hr2 := (hmem2 r).mp hrmem
    refine ⟨hr2.1, hr2.2.1, hr2.2.2, ?_, ?_⟩
    · intro x hx hc hf
      exact hmin x ((hmem2 x).mpr ⟨hx, hc, hf⟩)
    · intro x hx hc hf hveq
      refine htie x ((hmem2 x).mpr ⟨hx, hc, hf⟩) ?_
      rw [hveq]
      exact F64.leB_refl _

/-- C4 witness: the spec's own example — values 5 (Completed), 2 (Completed),
NaN (Completed), 9 (Running) — selects the trial with value 2. -/
theorem get_best_trial_spec_witness :
    (Storage.mk [FrozenTrial.mk 0 .completed (.finite 5) [] [],
      FrozenTrial.mk 1 .completed (.finite 2) [] [],
      FrozenTrial.mk 2 .completed .nan [] [],
      FrozenTrial.mk 3 .running (.finite 9) [] []]).get_best_trial =
      some (FrozenTrial.mk 1 .completed (.finite 2) [] []) ∧
    FrozenTrial.mk 1 .completed (.finite 2) [] [] ∈
      (Storage.mk [FrozenTrial.mk 0 .completed (.finite 5) [] [],
        FrozenTrial.mk 1 .completed (.finite 2) [] [],
        FrozenTrial.mk 2 .completed .nan [] [],
        FrozenTrial.mk 3 .running (.finite 9) [] []]).trials := by
  have h := (get_best_trial_spec (Storage.mk
      [FrozenTrial.mk 0 .completed (.finite 5) [] [],
       FrozenTrial.mk 1 .completed (.finite 2) [] [],
       FrozenTrial.mk 2 .completed .nan [] [],
       FrozenTrial.mk 3 .running (.finite 9) [] []]) (by decide)).2
    (FrozenTrial.mk 1 .completed (.finite 2) [] []) (by decide)
  exact ⟨by decide, h.1⟩

theorem getD_append_length {α : Type} (l : List α) (t d : α) :
    (l ++ [t]).getD l.length d = t := by
  rw [List.getD_eq_getElem?_getD, List.getElem?_concat_length]
  rfl

theorem getD_append_eq {α : Type} (l : List α) (t d : α) (i : Nat) (h : i = l.length) :
    (l ++ [t]).getD i d = t := by
  subst h
  exact getD_append_length l t d

theorem set_append_length {α : Type} (l : List α) (t x : α) :
    (l ++ [t]).set l.length x = l ++ [x] := by
  induction l with
  | nil => rfl
  | cons a l ih =>
    simp only [List.cons_append, List.length_cons, List.set_cons_succ, ih]

theorem set_trial_value_ok (s : Storage) (tid : Nat) (v : F64) (hwf : s.wf = true)
    (hlt : tid < s.trials.length)
    (hrun : (s.trials.getD tid trialDefault).state = .running) :
    s.set_trial_value tid v =
      (.ok (), ⟨s.trials.set tid { s.trials.getD tid trialDefault with value := v }⟩) := by
  have hscan := (scanIdx_storage s tid hwf).2 hlt
  rw [if_neg (by rw [is_finised_false _ hrun]; exact Bool.false_ne_true)] at hscan
  simp only [Storage.set_trial_value, hscan]
  rw [if_neg (by omega : ¬((tid : Int) < 0)), Int.toNat_natCast,
    listModify_eq_set s.trials tid _ trialDefault hlt]

theorem set_trial_state_ok (s : Storage) (tid : Nat) (st : FrozenTrialState)
    (hwf : s.wf = true) (hlt : tid < s.trials.length)
    (hrun : (s.trials.getD tid trialDefault).state = .running) :
    s.set_trial_state tid st =
      (.ok (), ⟨s.trials.set tid { s.trials.getD tid trialDefault with state := st }⟩) := by
  have hscan := (scanIdx_storage s tid hwf).2 hlt
  rw [if_neg (by rw [is_finised_false _ hrun]; exact Bool.false_ne_true)] at hscan
  simp only [Storage.set_trial_state, hscan]
  rw [if_neg (by omega : ¬((tid : Int) < 0)), Int.toNat_natCast,
    listModify_eq_set s.trials tid _ trialDefault hlt]

/-- One `optimize` iteration, written out: under well-formedness the driver's
storage gains exactly one record, already sealed `Completed` with the value
the objective returned for this iteration's handle; the driver's sampler is
untouched (the handle worked on a clone). -/
theorem optimizeStep_eq (s : Study) (objective : Objective)
    (hwf : s.storage.wf = true) :
    s.optimizeStep objective =
      { storage := ⟨s.storage.trials ++
          [{ trial_id := s.storage.trials.length, state := FrozenTrialState.completed,
             value := (objective s.nextHandle).1,
             internal_params := [], distributions := [] }]⟩,
        sampler := s.sampler } := by
  have hwf1 : (Storage.mk (s.storage.trials ++
      [FrozenTrial.new s.storage.trials.length .running (.finite 0)])).wf = true :=
    idsFrom_append_singleton s.storage.trials 0 _ hwf (by simp [FrozenTrial.new])
  have hlen1 : s.storage.trials.length <
      (s.storage.trials ++ [FrozenTrial.new s.storage.trials.length .running (.finite 0)]).length := by
    simp
  have hget1 : ((s.storage.trials ++
      [FrozenTrial.new s.storage.trials.length .running (.finite 0)]).getD
        s.storage.trials.length trialDefault) =
      FrozenTrial.new s.storage.trials.length .running (.finite 0) :=
    getD_append_length _ _ _
  have h1 : s.optimizeStep objective =
      { s with storage :=
          (((Storage.mk (s.storage.trials ++
            [FrozenTrial.new s.storage.trials.length .running (.finite 0)])).set_trial_value
              s.storage.trials.length (objective s.nextHandle).1).2.set_trial_state
                s.storage.trials.length FrozenTrialState.completed).2 } := rfl
  rw [h1]
  rw [set_trial_value_ok _ _ _ hwf1 hlen1 (by rw [hget1]; rfl)]
  rw [hget1]
  show ({ s with storage := ((Storage.mk ((s.storage.trials ++
      [FrozenTrial.new s.storage.trials.length .running (.finite 0)]).set
        s.storage.trials.length
        { FrozenTrial.new s.storage.trials.length .running (.finite 0) with
          value := (objective s.nextHandle).1 })).set_trial_state
          s.storage.trials.length FrozenTrialState.completed).2 } : Study) = _
  rw [set_append_length]
  have hwf2 : (Storage.mk (s.storage.trials ++
      [{ FrozenTrial.new s.storage.trials.length .running (.finite 0) with
         value := (objective s.nextHandle).1 }])).wf = true :=
    idsFrom_append_singleton s.storage.trials 0 _ hwf (by simp [FrozenTrial.new])
  have hget2 : ((s.storage.trials ++
      [{ FrozenTrial.new s.storage.trials.length .running (.finite 0) with
         value := (objective s.nextHandle).1 }]).getD
        s.storage.trials.length trialDefault) =
      { FrozenTrial.new s.storage.trials.length .running (.finite 0) with
        value := (objective s.nextHandle).1 } :=
    getD_append_length _ _ _
  rw [set_trial_state_ok _ _ _ hwf2 (by simp) (by rw [hget2]; rfl)]
  rw [hget2]
  rw [set_append_length]
  rfl

theorem optimize_succ (s : Study) (objective : Objective) :
    ∀ n : Nat, s.optimize objective (n + 1) =
      (s.optimize objective n).optimizeStep objective := by
  intro n
  induction n generalizing s with
  | zero => rfl
  | succ k ih =>
    show (s.optimizeStep objective).optimize objective (k + 1) =
      (s.optimize objective (k + 1)).optimizeStep objective
    rw [ih (s.optimizeStep objective)]
    rfl

theorem optimize_invariant (objective : Objective) :
    ∀ (n : Nat) (s : Study), s.storage.wf = true →
      (∀ t ∈ s.storage.trials, t.state = FrozenTrialState.completed) →
      (s.optimize objective n).storage.wf = true ∧
      (s.optimize objective n).storage.trials.length = s.storage.trials.length + n ∧
      (∀ t ∈ (s.optimize objective n).storage.trials,
        t.state = FrozenTrialState.completed) := by
  intro n
  induction n with
  | zero => exact fun s hwf hdone => ⟨hwf, rfl, hdone⟩
  | succ k ih =>
    intro s hwf hdone
    rw [optimize_succ]
    obtain ⟨hwf2, hlen2, hdone2⟩ := ih s hwf hdone
    rw [optimizeStep_eq _ _ hwf2]
    refine ⟨?_, ?_, ?_⟩
    · exact idsFrom_append_singleton _ 0 _ hwf2 (by simp)
    · simp [hlen2]
      omega
    · intro t ht
      rcases List.mem_append.mp ht with hmem | hmem
      · exact hdone2 t hmem
      · rcases List.mem_singleton.mp hmem with rfl
        rfl

/-- C10: after `optimize(objective, n)` on the program's initial study, the
driver's storage holds exactly `n` records, every one in state `Completed`
(in particular no record is ever `Failed`: the only `set_trial_state` call
in the program passes `Completed`), and the record of trial `i` carries as
its value exactly what the objective returned for the handle built at
iteration `i`. -/
theorem optimize_completes_all (objective : Objective) (n : Nat) :
    ((create_study Storage.new Sampler.new).optimize objective n).storage.trials.length = n ∧
    (∀ t ∈ ((create_study Storage.new Sampler.new).optimize objective n).storage.trials,
      t.state = FrozenTrialState.completed ∧ t.state ≠ FrozenTrialState.failed) ∧
    (∀ i : Nat, i < n →
      ((create_study Storage.new Sampler.new).optimize objective n).storage.trials.getD i
          trialDefault =
        { trial_id := i, state := FrozenTrialState.completed,
          value := (objective
            (((create_study Storage.new Sampler.new).optimize objective i).nextHandle)).1,
          internal_params := [], distributions := [] }) := by
  have hbase : ∀ m : Nat,
      ((create_study Storage.new Sampler.new).optimize objective m).storage.wf = true ∧
      ((create_study Storage.new Sampler.new).optimize objective m).storage.trials.length = m ∧
      (∀ t ∈ ((create_study Storage.new Sampler.new).optimize objective m).storage.trials,
        t.state = FrozenTrialState.completed) := by
    intro m
    have h := optimize_invariant objective m (create_study Storage.new Sampler.new)
      (by rfl) (by intro t ht; exact absurd ht (List.not_mem_nil t))
    exact ⟨h.1, by simpa [create_study, Storage.new] using h.2.1, h.2.2⟩
  refine ⟨(hbase n).2.1, ?_, ?_⟩
  · intro t ht
    have hc := (hbase n).2.2 t ht
    exact ⟨hc, by rw [hc]; intro hcontra; cases hcontra⟩
  · induction n with
    | zero => intro i hi; omega
    | succ k ih =>
      intro i hi
      rw [optimize_succ, optimizeStep_eq _ _ (hbase k).1]
      by_cases hik : i < k
      · have hlt : i < ((create_study Storage.new Sampler.new).optimize objective
            k).storage.trials.length := by
          rw [(hbase k).2.1]
          exact hik
        rw [List.getD_eq_getElem?_getD, List.getElem?_append_left hlt,
          ← List.getD_eq_getElem?_getD]
        exact ih i hik
      · have hik2 : i = k := by omega
        subst hik2
        have hlen := (hbase i).2.1
        rw [hlen]
        exact getD_append_eq _ _ trialDefault i hlen.symm

/-- C10 witness: two trials under a constant objective leave exactly two
records in the driver's storage. -/
theorem optimize_completes_all_witness :
    ((create_study Storage.new Sampler.new).optimize
      (fun t => (F64.finite 7, t)) 2).storage.trials.length = 2 :=
  (optimize_completes_all (fun t => (F64.finite 7, t)) 2).1

/-- C3 (evaluation of the code at the failing inputs): on malformed bounds
the sampling path panics inside the `rand` `Uniform` constructors or
`gen_range` (for `LogUniform` with a negative low bound, `ln` yields NaN and
the IEEE comparison inside the constructor fails).  The sampler methods'
return types (`f64`, `i64`, `String`) cannot carry an error value, so no
`ConfigurationError` is ever returned. -/
theorem sampler_malformed_panics :
    Sampler.new.sample_independent_int "x"
      (Distributions.intUni (IntUniformDistribution.new 1 0)) =
      .error .uniformBadRange ∧
    Sampler.new.sample_independent "x"
      (Distributions.uni (UniformDistribution.new (.finite 1) (.finite 0))) =
      .error .uniformBadRange ∧
    Sampler.new.sample_independent "x"
      (Distributions.logUni (LogUniformDistribution.new (.finite (-1)) (.finite 2))) =
      .error .uniformBadRange ∧
    Sampler.new.sample_independent_category "x"
      (Distributions.categorical (CategoricalDistribution.new [])) =
      .error .emptyRange :=
  ⟨rfl, rfl, rfl, rfl⟩

/-- C2 (evaluation of the code at the failing input): on a handle bound to a
`Completed` trial, `suggest_int` still returns `Ok` with the sampled value —
the source discards the `Result` of `set_trial_param` — even though the
Store's own `set_trial_param` fails with `AlreadyFinished` on that trial. -/
theorem suggest_int_on_finished_returns_ok :
    (((Trial.new (Study.new
        (Storage.mk [FrozenTrial.mk 0 .completed (.finite 1) [] []]) Sampler.new) 0).suggest_int
          "x" 0 10).map (fun p => p.1)) = .ok (.ok 0) ∧
    ((Storage.mk [FrozenTrial.mk 0 .completed (.finite 1) [] []]).set_trial_param 0 "x"
      (Distributions.intUni (IntUniformDistribution.new 0 10)) (.finite 0)).1 =
      .error .alreadyFinished :=
  ⟨rfl, rfl⟩

/-- Concrete objective used to evaluate the driver loop: suggests "x" from
IntUniform(0, 10) through the handle and scores 0. -/
def objX : Objective := fun t =>
  match t.suggest_int "x" 0 10 with
  | .ok (_, t1) => (F64.finite 0, t1)
  | .error _ => (F64.nan, t)

/-- C1 (evaluation of the code at the failing input): after one `optimize`
iteration with an objective that calls `suggest_int("x", 0, 10)`, the
driver's own storage — the one `optimize` and `get_best_trial` read — holds
no parameter entry for trial 0; the suggest call's write went into the
handle's cloned study (second conjunct), because `optimize` passes
`self.clone()` to `Trial::new`. -/
theorem suggest_writes_lost_on_clone :
    ((create_study Storage.new Sampler.new).optimize objX 1).storage.trials.map
      (fun t => t.internal_params) = [[]] ∧
    (((create_study Storage.new Sampler.new).nextHandle.suggest_int "x" 0 10).map
      (fun p => p.2.study.storage.trials.map (fun t => t.internal_params))) =
      .ok [[("x", F64.finite 0)]] :=
  ⟨rfl, rfl⟩
